import Mathlib

set_option maxRecDepth 8000

/-!
Verification of the Tamil-PDF translation pipeline's chunking and
orchestration layer.  Python strings are modelled as `List Char`;
stateful translator objects are modelled by passing the external
translation providers as oracle functions `List Char → Option (List Char)`
(`none` = the provider raised an exception); a function that may raise is
modelled as returning `Option` (`none` = the exception propagates).
-/

namespace PyStr

/-- ASCII whitespace as stripped by Python's str.strip
(space, tab, newline, carriage return, vertical tab, form feed;
further Unicode space characters are not modelled since no claim depends
on them). -/
def isPyWS (c : Char) : Bool :=
  c == ' ' || c == '\t' || c == '\n' || c == '\r' ||
  c == Char.ofNat 11 || c == Char.ofNat 12

/-- Leading-whitespace removal, the left half of Python str.strip. -/
def trimLeft (s : List Char) : List Char := s.dropWhile isPyWS

/-- Trailing-whitespace removal, the right half of Python str.strip. -/
def trimRight (s : List Char) : List Char := (s.reverse.dropWhile isPyWS).reverse

/-- Python str.strip: removes leading and trailing whitespace. -/
def trim (s : List Char) : List Char := trimLeft (trimRight s)

/-- Python text.split on a single newline, as in
`text.split('\n')` (translation.py line 94). -/
def splitNl : List Char → List (List Char)
  | [] => [[]]
  | c :: rest =>
    if c = '\n' then [] :: splitNl rest
    else
      match splitNl rest with
      | [] => [[c]]
      | h :: t => (c :: h) :: t

/-- Python text.split on a double newline, as in
`text.split('\n\n')` (gemini_translation.py line 291); the scan is
left-to-right and non-overlapping, matching str.split. -/
def splitPar : List Char → List (List Char)
  | [] => [[]]
  | [c] => [[c]]
  | c1 :: c2 :: rest =>
    if c1 = '\n' ∧ c2 = '\n' then [] :: splitPar rest
    else
      match splitPar (c2 :: rest) with
      | [] => [[c1]]
      | h :: t => (c1 :: h) :: t

/-- Python sep.join(parts). -/
def joinSep (sep : List Char) : List (List Char) → List Char
  | [] => []
  | [s] => s
  | s :: rest => s ++ sep ++ joinSep sep rest

/-- Python '\n'.join(parts). -/
def joinNl : List (List Char) → List Char := joinSep ['\n']

/-- Python '\n\n'.join(parts). -/
def joinPar : List (List Char) → List Char := joinSep ['\n', '\n']

end PyStr

open PyStr

namespace Segmenter

/-- The greedy accumulation loop shared (textually duplicated) by
`TamilTranslator._split_text` (sep = newline) and
`GeminiTranslator._split_text` (sep = double newline):

    for line in text.split(sep):
        if len(current_chunk + line + sep) > chunk_size and current_chunk:
            chunks.append(current_chunk.strip())
            current_chunk = line + sep
        else:
            current_chunk += line + sep
    if current_chunk:
        chunks.append(current_chunk.strip())
-/
def chunksGo (sep : List Char) (maxSize : Nat) :
    List (List Char) → List Char → List (List Char)
  | [], current => if current = [] then [] else [trim current]
  | u :: rest, current =>
    if maxSize < current.length + u.length + sep.length ∧ current ≠ [] then
      trim current :: chunksGo sep maxSize rest (u ++ sep)
    else
      chunksGo sep maxSize rest (current ++ u ++ sep)

end Segmenter

namespace TamilTranslator

/-- `TamilTranslator._split_text` (translation.py lines 86-104): split on
single newlines, greedy accumulation up to chunk_size, each chunk stripped. -/
def split_text (text : List Char) (chunkSize : Nat) : List (List Char) :=
  if text.length ≤ chunkSize then [text]
  else Segmenter.chunksGo ['\n'] chunkSize (splitNl text) []

/-- The inline failure placeholder of translation.py line 75:
`f"[Translation failed: {chunk[:100]}...]"`. -/
def placeholder (chunk : List Char) : List Char :=
  "[Translation failed: ".data ++ chunk.take 100 ++ "...]".data

/-- Result of a translate_text call: `output = none` models the call
raising TranslationError; `requests` counts API requests issued. -/
structure Result where
  output : Option (List Char)
  requests : Nat
  deriving DecidableEq, Repr

/-- The chunk loop of translate_text (translation.py lines 59-76):
returns (translated_chunks, failed_chunks, requests issued).
Chunks that strip to empty are skipped entirely. -/
def loop (oracle : List Char → Option (List Char)) :
    List (List Char) → List (List Char) × Nat × Nat
  | [] => ([], 0, 0)
  | c :: rest =>
    let r := loop oracle rest
    if trim c ≠ [] then
      match oracle c with
      | some t => (t :: r.1, r.2.1, r.2.2 + 1)
      | none => (placeholder c :: r.1, r.2.1 + 1, r.2.2 + 1)
    else r

/-- `TamilTranslator.translate_text` (translation.py lines 38-84).
The Google client is the oracle; `none` models a raised exception. -/
def translate_text (oracle : List Char → Option (List Char))
    (text : List Char) (chunkSize : Nat) : Result :=
  if trim text = [] then ⟨some [], 0⟩
  else
    let chunks := split_text text chunkSize
    let r := loop oracle chunks
    if r.2.1 = chunks.length then ⟨none, r.2.2⟩
    else ⟨some (joinNl r.1), r.2.2⟩

end TamilTranslator

namespace GeminiTranslator

/-- `GeminiTranslator._split_text` (gemini_translation.py lines 280-305):
split on double newlines, greedy accumulation, each chunk stripped. -/
def split_text (text : List Char) (maxChunkSize : Nat) : List (List Char) :=
  if text.length ≤ maxChunkSize then [text]
  else Segmenter.chunksGo ['\n', '\n'] maxChunkSize (splitPar text) []

/-- The inline failure placeholder of gemini_translation.py line 258:
`f"[Translation failed for chunk {i}: {chunk[:100]}...]"`. -/
def placeholder (i : Nat) (chunk : List Char) : List Char :=
  "[Translation failed for chunk ".data ++ (Nat.repr i).data ++ ": ".data ++
    chunk.take 100 ++ "...]".data

/-- Result of a Gemini translate_text call: `output = none` models the
call raising GeminiTranslationError; `requests` counts generate_content
requests; `segmenterCalls` counts invocations of `_split_text`. -/
structure Result where
  output : Option (List Char)
  requests : Nat
  segmenterCalls : Nat
  deriving DecidableEq, Repr

/-- The chunk loop of Gemini translate_text (gemini_translation.py lines
229-263), chunks indexed from 1.  A response that is absent or has empty
text raises, which is caught and converted to the placeholder.  Successful
response text is stripped. -/
def loop (oracle : List Char → Option (List Char)) :
    Nat → List (List Char) → List (List Char) × Nat × Nat
  | _, [] => ([], 0, 0)
  | i, c :: rest =>
    let r := loop oracle (i + 1) rest
    if trim c ≠ [] then
      match oracle c with
      | some t =>
        if t ≠ [] then (trim t :: r.1, r.2.1, r.2.2 + 1)
        else (placeholder i c :: r.1, r.2.1 + 1, r.2.2 + 1)
      | none => (placeholder i c :: r.1, r.2.1 + 1, r.2.2 + 1)
    else r

/-- `GeminiTranslator.translate_text` (gemini_translation.py lines
201-274).  The outer try/except re-raises any failure (including the
all-chunks-failed error) as GeminiTranslationError, modelled as `none`. -/
def translate_text (oracle : List Char → Option (List Char))
    (text : List Char) (chunkSize : Nat) : Result :=
  if trim text = [] then ⟨some [], 0, 0⟩
  else
    let chunks := split_text text chunkSize
    let r := loop oracle 1 chunks
    if r.2.1 = chunks.length then ⟨none, r.2.2, 1⟩
    else ⟨some (joinPar r.1), r.2.2, 1⟩

/-- Result of translate_document: `warned` records whether the advisory
short-output warning was printed. -/
structure DocResult where
  output : Option (List Char)
  warned : Bool
  requests : Nat
  segmenterCalls : Nat
  deriving DecidableEq, Repr

/-- `GeminiTranslator.translate_document` (gemini_translation.py lines
115-199): one whole-document request; an absent or empty response raises;
on success the stripped response text is returned, after an advisory
warning when the output is shorter than 70 percent of the input
(the Python comparison `output_chars < input_chars * 0.7` is modelled in
exact arithmetic as `10 * output < 7 * input`).  The body never calls
`_split_text`, hence `segmenterCalls = 0`. -/
def translate_document (docOracle : List Char → Option (List Char))
    (text : List Char) : DocResult :=
  if trim text = [] then ⟨some [], false, 0, 0⟩
  else
    match docOracle text with
    | some rt =>
      if rt ≠ [] then
        ⟨some (trim rt), decide (10 * (trim rt).length < 7 * text.length), 1, 0⟩
      else ⟨none, false, 1, 0⟩
    | none => ⟨none, false, 1, 0⟩

/-- The Gemini-backed translator object as seen by the orchestration:
its configured mode flag and its two external providers. -/
structure Model where
  fullDocumentMode : Bool
  docOracle : List Char → Option (List Char)
  chunkOracle : List Char → Option (List Char)
  chunkSize : Nat

/-- `GeminiTranslator.has_full_document_support` (gemini_translation.py
lines 276-278): true iff the configured translation mode is 'document'. -/
def has_full_document_support (m : Model) : Bool := m.fullDocumentMode

end GeminiTranslator

namespace HuggingFaceTranslator

/-- `HuggingFaceTranslator.translate_text` (local_translation.py lines
91-125): whitespace-only text returns "" before the availability check;
an unavailable translator raises; otherwise the same chunk loop as
TamilTranslator (same placeholder format, '\n' join, line-based split). -/
def translate_text (available : Bool)
    (oracle : List Char → Option (List Char))
    (text : List Char) (chunkSize : Nat) : TamilTranslator.Result :=
  if trim text = [] then ⟨some [], 0⟩
  else if available = false then ⟨none, 0⟩
  else
    let chunks := TamilTranslator.split_text text chunkSize
    let r := TamilTranslator.loop oracle chunks
    if r.2.1 = chunks.length then ⟨none, r.2.2⟩
    else ⟨some (joinNl r.1), r.2.2⟩

end HuggingFaceTranslator

namespace ContentProcessor

/-- Outcome of format_pages_content: the function itself never raises
(file_handler.py catches everything); the counters record how many times
the Segmenter (`_split_text`) and the whole-document provider were
invoked during the call. -/
structure FPCResult where
  output : List Char
  segmenterCalls : Nat
  docRequests : Nat
  deriving Repr

/-- The per-page fallback loop of format_pages_content (file_handler.py
lines 76-86): each page is translated independently; a page whose
translate_text call raises contributes
`f"[Translation Error for page {page_num}]\n{text}"` and processing
continues. -/
def pageLoop (m : GeminiTranslator.Model) :
    List (Nat × List Char) → List (List Char) × Nat
  | [] => ([], 0)
  | (n, tx) :: rest =>
    let r := GeminiTranslator.translate_text m.chunkOracle tx m.chunkSize
    let rec' := pageLoop m rest
    match r.output with
    | some t => (t :: rec'.1, r.segmenterCalls + rec'.2)
    | none =>
      (("[Translation Error for page ".data ++ (Nat.repr n).data ++ "]\n".data
          ++ tx) :: rec'.1,
        r.segmenterCalls + rec'.2)

/-- `ContentProcessor.format_pages_content` (file_handler.py lines 37-93)
instantiated with a Gemini translator (the only translator class that
defines `has_full_document_support`, so the only one that can take the
whole-document branch).  With translate=True: if the translator reports
full-document support, translate_document is called once on the
'\n\n'-joined page texts and its failure falls back to the original Tamil
text; otherwise each page goes through translate_text.  With
translate=False the joined Tamil text is returned. -/
def format_pages_content (pages : List (Nat × List Char))
    (m : GeminiTranslator.Model) (translate : Bool) : FPCResult :=
  let full := joinPar (pages.map Prod.snd)
  if translate then
    if GeminiTranslator.has_full_document_support m then
      let r := GeminiTranslator.translate_document m.docOracle full
      match r.output with
      | some tr => ⟨tr, r.segmenterCalls, r.requests⟩
      | none => ⟨full, r.segmenterCalls, r.requests⟩
    else
      let l := pageLoop m pages
      ⟨joinPar l.1, l.2, 0⟩
  else ⟨full, 0, 0⟩

end ContentProcessor

namespace TamilOCRProcessor

/-- The page loop of process_pdf (ocr.py lines 50-57): pages are numbered
`i + page_offset` with `i` counting from 1; a page whose extracted text
strips to empty is dropped, otherwise the stripped text is kept. -/
def ocrPages (pageOffset : Nat) : Nat → List (List Char) → List (Nat × List Char)
  | _, [] => []
  | i, t :: rest =>
    if trim t ≠ [] then (i + pageOffset, trim t) :: ocrPages pageOffset (i + 1) rest
    else ocrPages pageOffset (i + 1) rest

/-- `TamilOCRProcessor.process_pdf` (ocr.py lines 21-69) with the external
rasterise-and-OCR collaborators abstracted to the list of per-page
extracted texts: raises OCRError (`none`) when no page survives the
non-empty filter. -/
def process_pdf (texts : List (List Char)) (pageOffset : Nat) :
    Option (List (Nat × List Char)) :=
  let pages := ocrPages pageOffset 1 texts
  if pages = [] then none else some pages

end TamilOCRProcessor

namespace LocalTranslator

/-- The three local translation services probed by
`LocalTranslator._initialize_services` (local_translation.py 294-333). -/
inductive Service where
  | argos
  | huggingface
  | libretranslate
  deriving DecidableEq, Repr

/-- The services dict after _initialize_services, keyed in insertion
order (HuggingFace probed first, then Argos, then LibreTranslate);
each flag is true when that service's constructor succeeded and its
is_available() probe returned true. -/
def availableServices (hfOk argosOk libreOk : Bool) : List Service :=
  (if hfOk then [Service.huggingface] else []) ++
  (if argosOk then [Service.argos] else []) ++
  (if libreOk then [Service.libretranslate] else [])

/-- The priority selection loop of _initialize_services (lines 328-333):
first available of argos, huggingface, libretranslate. -/
def priorityPick (services : List Service) : Option Service :=
  if Service.argos ∈ services then some Service.argos
  else if Service.huggingface ∈ services then some Service.huggingface
  else if Service.libretranslate ∈ services then some Service.libretranslate
  else none

/-- Active-service selection (lines 324-333): a preferred service that was
probed successfully wins, otherwise the fixed priority order applies. -/
def selectActive (services : List Service) (preferred : Option Service) :
    Option Service :=
  match preferred with
  | some p => if p ∈ services then some p else priorityPick services
  | none => priorityPick services

/-- `LocalTranslator.__init__` (local_translation.py lines 283-292):
probes the three services, selects the active one, and raises
LocalTranslationError (`none`) when no service is available. -/
def init (hfOk argosOk libreOk : Bool) (preferred : Option Service) :
    Option (List Service × Option Service) :=
  let services := availableServices hfOk argosOk libreOk
  if services = [] then none
  else some (services, selectActive services preferred)

end LocalTranslator

/-- `small` occurs as a contiguous substring of `big`. -/
def occursIn (small big : List Char) : Prop :=
  ∃ pre post, big = pre ++ small ++ post

/-- A 101-character line, longer than the 100-character placeholder
truncation window. -/
def c3chunk : List Char := List.replicate 101 'q'

/-- A document whose first line is `c3chunk` and whose second line is
"bb"; with chunk_size 101 it splits into those two chunks. -/
def c3text : List Char := c3chunk ++ '\n' :: ['b', 'b']

/-- A provider that fails on the long chunk and translates everything
else to "X". -/
def c3oracle : List Char → Option (List Char) :=
  fun c => if c = c3chunk then none else some ['X']

/-- The output translate_text produces for `c3text` under `c3oracle`:
placeholder (holding only the first 100 characters of the chunk),
then the translated second chunk. -/
def c3out : List Char :=
  "[Translation failed: ".data ++ List.replicate 100 'q' ++ "...]".data ++
    '\n' :: ['X']

/-! ## Claim C4: empty-input segmentation -/

/-- C4 counterexample: the claim says the Segmenter returns an empty
sequence for empty input, but both splitters take the
`len(text) <= chunk_size` branch and return a one-element list holding
the empty text. -/
theorem c4_counterexample :
    TamilTranslator.split_text [] 1 ≠ [] ∧
    TamilTranslator.split_text [] 1 = [[]] ∧
    GeminiTranslator.split_text [] 1 ≠ [] ∧
    GeminiTranslator.split_text [] 1 = [[]] := by decide

/-- C4 (amended): for empty input and any max_size >= 1, both splitters
return a single empty segment (a one-element sequence containing the
empty text), not an empty sequence. -/
theorem c4_empty_input (maxSize : Nat) (h : 1 ≤ maxSize) :
    TamilTranslator.split_text [] maxSize = [[]] ∧
    GeminiTranslator.split_text [] maxSize = [[]] := by
  constructor <;>
    simp [TamilTranslator.split_text, GeminiTranslator.split_text]

/-- Witness for C4's amended theorem at max_size = 5. -/
theorem c4_empty_input_witness :
    1 ≤ 5 ∧ (TamilTranslator.split_text [] 5 = [[]] ∧
      GeminiTranslator.split_text [] 5 = [[]]) :=
  ⟨by decide, c4_empty_input 5 (by decide)⟩

/-! ## Claim C9: meta-adapter priority -/

/-- C9: with no preferred service, LocalTranslator construction fails
exactly when no local service probed successfully, and otherwise selects
the first available service in the fixed order
argos > huggingface > libretranslate. -/
theorem c9_meta_adapter_priority (hfOk argosOk libreOk : Bool) :
    (LocalTranslator.init hfOk argosOk libreOk none = none ↔
      hfOk = false ∧ argosOk = false ∧ libreOk = false) ∧
    ((hfOk || argosOk || libreOk) = true →
      LocalTranslator.init hfOk argosOk libreOk none =
        some (LocalTranslator.availableServices hfOk argosOk libreOk,
          some (if argosOk then LocalTranslator.Service.argos
            else if hfOk then LocalTranslator.Service.huggingface
            else LocalTranslator.Service.libretranslate))) := by
  revert hfOk argosOk libreOk
  decide

/-- Witness for C9 with only argos available: argos is selected. -/
theorem c9_meta_adapter_priority_witness :
    LocalTranslator.init false true false none =
      some ([LocalTranslator.Service.argos],
        some LocalTranslator.Service.argos) :=
  (c9_meta_adapter_priority false true false).2 rfl

/-! ## Claim C10: whitespace-only fast path -/

/-- C10: every backend's translate_text returns the empty string on
whitespace-only input, issuing no request to the provider and never
failing, whatever the providers do. -/
theorem c10_whitespace_fast_path
    (o1 o2 o3 : List Char → Option (List Char)) (text : List Char)
    (n1 n2 n3 : Nat) (avail : Bool) (h : trim text = []) :
    TamilTranslator.translate_text o1 text n1 = ⟨some [], 0⟩ ∧
    GeminiTranslator.translate_text o2 text n2 = ⟨some [], 0, 0⟩ ∧
    HuggingFaceTranslator.translate_text avail o3 text n3 = ⟨some [], 0⟩ := by
  refine ⟨?_, ?_, ?_⟩ <;>
    simp [TamilTranslator.translate_text, GeminiTranslator.translate_text,
      HuggingFaceTranslator.translate_text, h]

/-- Witness for C10 on the whitespace text "  \n" with providers that
would fail every request. -/
theorem c10_whitespace_fast_path_witness :
    TamilTranslator.translate_text (fun _ => none) "  \n".data 5 = ⟨some [], 0⟩ ∧
    GeminiTranslator.translate_text (fun _ => none) "  \n".data 5 = ⟨some [], 0, 0⟩ ∧
    HuggingFaceTranslator.translate_text false (fun _ => none) "  \n".data 5 =
      ⟨some [], 0⟩ :=
  c10_whitespace_fast_path (fun _ => none) (fun _ => none) (fun _ => none)
    "  \n".data 5 5 5 false (by decide)

/-! ## Claim C8: advisory completeness check -/

/-- C8: in whole-document mode, a successful non-empty response is
returned (stripped) whatever its length; when the translated character
count is below 70 percent of the source count the warning fires but the
returned value is unchanged. -/
theorem c8_advisory_completeness
    (docOracle : List Char → Option (List Char)) (text rt : List Char)
    (hne : trim text ≠ []) (hresp : docOracle text = some rt) (hrt : rt ≠ []) :
    (GeminiTranslator.translate_document docOracle text).output =
      some (trim rt) ∧
    (10 * (trim rt).length < 7 * text.length →
      (GeminiTranslator.translate_document docOracle text).warned = true) := by
  unfold GeminiTranslator.translate_document
  rw [if_neg hne, hresp]
  refine ⟨by simp [hrt], fun hshort => by simp [hrt, hshort]⟩

/-- Witness for C8: a 10-character source with a 2-character translation
(20 percent of the source) is still returned, with the warning fired. -/
theorem c8_advisory_completeness_witness :
    (GeminiTranslator.translate_document (fun _ => some ['x', 'y'])
      "abcdefghij".data).output = some ['x', 'y'] ∧
    (GeminiTranslator.translate_document (fun _ => some ['x', 'y'])
      "abcdefghij".data).warned = true := by
  have h := c8_advisory_completeness (fun _ => some ['x', 'y'])
    "abcdefghij".data ['x', 'y'] (by decide) rfl (by decide)
  exact ⟨h.1.trans (by decide), h.2 (by decide)⟩

/-! ## Claim C2: all-fail escalation -/

/-- C2: the code violates the claim.  On the input "aaaaa\n\nbbbbbb" with
chunk_size 6 the splitter produces a chunk that strips to empty; that
chunk is skipped by the translation loop without being counted as failed,
so even though the provider fails every chunk,
`failed_chunks == len(chunks)` is false and translate_text returns the
all-placeholder string as an ordinary success instead of raising
TranslationError — contradicting its own docstring
"Raises TranslationError: If translation fails completely". -/
theorem c2_all_fail_not_escalated :
    TamilTranslator.split_text "aaaaa\n\nbbbbbb".data 6 =
      ["aaaaa".data, [], "bbbbbb".data] ∧
    (TamilTranslator.translate_text (fun _ => none)
        "aaaaa\n\nbbbbbb".data 6).output =
      some "[Translation failed: aaaaa...]\n[Translation failed: bbbbbb...]".data := by
  decide

/-! ## Claim C7: OCR empty-result failure -/

lemma ocrPages_eq_nil (texts : List (List Char)) (off : Nat) :
    (∀ t ∈ texts, trim t = []) → ∀ i, TamilOCRProcessor.ocrPages off i texts = [] := by
  induction texts with
  | nil => intro _ i; rfl
  | cons t rest ih =>
    intro h i
    have ht : trim t = [] := h t (List.mem_cons_self t rest)
    simp [TamilOCRProcessor.ocrPages, ht, ih (fun u hu => h u (List.mem_cons_of_mem t hu))]

lemma ocrPages_ne_nil (texts : List (List Char)) (off : Nat) :
    (∃ t ∈ texts, trim t ≠ []) → ∀ i, TamilOCRProcessor.ocrPages off i texts ≠ [] := by
  induction texts with
  | nil => rintro ⟨t, ht, _⟩; cases ht
  | cons t rest ih =>
    rintro ⟨u, hu, hne⟩ i
    rcases List.mem_cons.1 hu with rfl | hmem
    · simp [TamilOCRProcessor.ocrPages, hne]
    · by_cases ht : trim t = []
      · simpa [TamilOCRProcessor.ocrPages, ht] using ih ⟨u, hmem, hne⟩ (i + 1)
      · simp [TamilOCRProcessor.ocrPages, ht]

lemma ocrPages_lb (texts : List (List Char)) (off : Nat) :
    ∀ i, ∀ p ∈ TamilOCRProcessor.ocrPages off i texts, i + off ≤ p.1 := by
  induction texts with
  | nil => intro i p hp; cases hp
  | cons t rest ih =>
    intro i p hp
    by_cases ht : trim t = []
    · simp only [TamilOCRProcessor.ocrPages, ht, ne_eq, not_true_eq_false,
        if_false] at hp
      exact le_trans (by omega) (ih (i + 1) p hp)
    · simp only [TamilOCRProcessor.ocrPages, ht, ne_eq, not_false_eq_true,
        if_true] at hp
      rcases List.mem_cons.1 hp with rfl | hp
      · exact le_refl _
      · exact le_trans (by omega) (ih (i + 1) p hp)

lemma ocrPages_pairwise (texts : List (List Char)) (off : Nat) :
    ∀ i, List.Pairwise (fun a b => a.1 < b.1)
      (TamilOCRProcessor.ocrPages off i texts) := by
  induction texts with
  | nil => intro i; exact List.Pairwise.nil
  | cons t rest ih =>
    intro i
    by_cases ht : trim t = []
    · simpa [TamilOCRProcessor.ocrPages, ht] using ih (i + 1)
    · simp only [TamilOCRProcessor.ocrPages, ht, ne_eq, not_false_eq_true, if_true]
      exact List.Pairwise.cons
        (fun p hp => lt_of_lt_of_le (by omega) (ocrPages_lb rest off (i + 1) p hp))
        (ih (i + 1))

lemma ocrPages_mem (texts : List (List Char)) (off : Nat) :
    ∀ i, ∀ p ∈ TamilOCRProcessor.ocrPages off i texts,
      ∃ t ∈ texts, p.2 = trim t ∧ trim t ≠ [] := by
  induction texts with
  | nil => intro i p hp; cases hp
  | cons t rest ih =>
    intro i p hp
    by_cases ht : trim t = []
    · simp only [TamilOCRProcessor.ocrPages, ht, ne_eq, not_true_eq_false,
        if_false] at hp
      obtain ⟨u, hu, h1, h2⟩ := ih (i + 1) p hp
      exact ⟨u, List.mem_cons_of_mem t hu, h1, h2⟩
    · simp only [TamilOCRProcessor.ocrPages, ht, ne_eq, not_false_eq_true,
        if_true] at hp
      rcases List.mem_cons.1 hp with rfl | hp
      · exact ⟨t, List.mem_cons_self t rest, rfl, ht⟩
      · obtain ⟨u, hu, h1, h2⟩ := ih (i + 1) p hp
        exact ⟨u, List.mem_cons_of_mem t hu, h1, h2⟩

/-- C7: process_pdf raises OCRError exactly on all-whitespace extractions:
if every page's extracted text strips to empty it returns `none`
(OCRError), and if at least one page yields non-empty text it returns,
without raising, a sequence of (page_number, stripped text) pairs with
strictly increasing page numbers and non-empty texts drawn from the
extracted pages. -/
theorem c7_ocr_empty_result (texts : List (List Char)) (offset : Nat) :
    ((∀ t ∈ texts, trim t = []) →
      TamilOCRProcessor.process_pdf texts offset = none) ∧
    ((∃ t ∈ texts, trim t ≠ []) →
      ∃ ps, TamilOCRProcessor.process_pdf texts offset = some ps ∧ ps ≠ [] ∧
        List.Pairwise (fun a b => a.1 < b.1) ps ∧
        ∀ p ∈ ps, ∃ t ∈ texts, p.2 = trim t ∧ trim t ≠ []) := by
  constructor
  · intro h
    simp [TamilOCRProcessor.process_pdf, ocrPages_eq_nil texts offset h 1]
  · intro h
    have hne := ocrPages_ne_nil texts offset h 1
    refine ⟨TamilOCRProcessor.ocrPages offset 1 texts, ?_, hne,
      ocrPages_pairwise texts offset 1, ocrPages_mem texts offset 1⟩
    simp [TamilOCRProcessor.process_pdf, hne]

/-- Witness for C7: an all-whitespace page list raises, and a list with
one real page succeeds. -/
theorem c7_ocr_empty_result_witness :
    TamilOCRProcessor.process_pdf ["  ".data] 0 = none ∧
    (∃ ps, TamilOCRProcessor.process_pdf ["a".data, "  ".data] 0 = some ps ∧
      ps ≠ [] ∧ List.Pairwise (fun a b => a.1 < b.1) ps ∧
      ∀ p ∈ ps, ∃ t ∈ ["a".data, "  ".data], p.2 = trim t ∧ trim t ≠ []) :=
  ⟨(c7_ocr_empty_result ["  ".data] 0).1 (by decide),
    (c7_ocr_empty_result ["a".data, "  ".data] 0).2 ⟨"a".data, by decide, by decide⟩⟩

/-! ## Claim C6: whole-document bypass -/

/-- C6: when the Gemini backend reports full-document support (the only
backend with the `has_full_document_support` probe), format_pages_content
with translate=True never invokes the Segmenter (`_split_text`) and makes
at most one whole-document request — exactly one whenever the joined
document text is not whitespace-only. -/
theorem c6_whole_document_bypass (pages : List (Nat × List Char))
    (m : GeminiTranslator.Model)
    (h : GeminiTranslator.has_full_document_support m = true) :
    (ContentProcessor.format_pages_content pages m true).segmenterCalls = 0 ∧
    (ContentProcessor.format_pages_content pages m true).docRequests ≤ 1 ∧
    (trim (joinPar (pages.map Prod.snd)) ≠ [] →
      (ContentProcessor.format_pages_content pages m true).docRequests = 1) := by
  unfold ContentProcessor.format_pages_content GeminiTranslator.translate_document
  rw [h]
  by_cases hfull : trim (joinPar (pages.map Prod.snd)) = []
  · simp [hfull]
  · rcases hdoc : m.docOracle (joinPar (pages.map Prod.snd)) with _ | rt
    · simp [hfull, hdoc]
    · by_cases hrt : rt = [] <;> simp [hfull, hdoc, hrt]

/-- Witness for C6 on one concrete page list and a document-mode
translator whose provider answers "x". -/
theorem c6_whole_document_bypass_witness :
    (ContentProcessor.format_pages_content [(1, "ab".data)]
      ⟨true, fun _ => some ['x'], fun _ => none, 5⟩ true).segmenterCalls = 0 ∧
    (ContentProcessor.format_pages_content [(1, "ab".data)]
      ⟨true, fun _ => some ['x'], fun _ => none, 5⟩ true).docRequests ≤ 1 ∧
    (trim (joinPar ([(1, "ab".data)].map Prod.snd)) ≠ [] →
      (ContentProcessor.format_pages_content [(1, "ab".data)]
        ⟨true, fun _ => some ['x'], fun _ => none, 5⟩ true).docRequests = 1) :=
  c6_whole_document_bypass [(1, "ab".data)]
    ⟨true, fun _ => some ['x'], fun _ => none, 5⟩ rfl

/-! ## Claim C3: segment-failure recovery -/

/-- The translate_text chunk loop (translation.py lines 59-76) in closed
form: outputs are the in-order per-chunk results with failures replaced
by placeholders and whitespace-only chunks skipped; the failure count is
the number of non-whitespace chunks whose translation failed; the request
count is the number of non-whitespace chunks. -/
lemma tamilLoop_spec (oracle : List Char → Option (List Char)) :
    ∀ chunks, TamilTranslator.loop oracle chunks =
      (chunks.filterMap (fun c => if trim c = [] then none
          else some (match oracle c with
            | some t => t
            | none => TamilTranslator.placeholder c)),
        chunks.countP (fun c => decide (trim c ≠ [] ∧ oracle c = none)),
        chunks.countP (fun c => decide (trim c ≠ []))) := by
  intro chunks
  induction chunks with
  | nil => rfl
  | cons c rest ih =>
    by_cases hc : trim c = []
    · simp [TamilTranslator.loop, hc, ih, List.countP_cons]
    · rcases ho : oracle c with _ | t <;>
        simp [TamilTranslator.loop, hc, ho, ih, List.countP_cons]

/-- C3 counterexample: with a 101-character segment whose translation
fails (and a second segment that succeeds), the document is not aborted,
but the placeholder holds only the first 100 characters: the original
untranslated segment text does not occur in the produced output. -/
theorem c3_counterexample :
    TamilTranslator.split_text c3text 101 = [c3chunk, ['b', 'b']] ∧
    c3oracle c3chunk = none ∧
    (TamilTranslator.translate_text c3oracle c3text 101).output = some c3out ∧
    ¬ occursIn c3chunk c3out := by
  refine ⟨by decide, by decide, by decide, ?_⟩
  rintro ⟨pre, post, heq⟩
  have hsplit : c3out.count 'q' =
      pre.count 'q' + c3chunk.count 'q' + post.count 'q' := by
    rw [heq]; simp [List.count_append]; omega
  have h1 : c3out.count 'q' = 100 := by decide
  have h2 : c3chunk.count 'q' = 101 := by decide
  omega

/-- C3 (amended): whenever at least one non-whitespace segment's
translation succeeds, translate_text returns (without aborting) the
in-order join of the per-segment results, where each failed segment is
replaced by the marked placeholder holding the first 100 characters of
its original text, successful segments keep their translations, and
whitespace-only segments are skipped. -/
theorem c3_segment_failure_recovery
    (oracle : List Char → Option (List Char)) (text : List Char)
    (chunkSize : Nat) (hne : trim text ≠ [])
    (hsucc : ∃ c ∈ TamilTranslator.split_text text chunkSize,
      trim c ≠ [] ∧ oracle c ≠ none) :
    (TamilTranslator.translate_text oracle text chunkSize).output =
      some (joinNl ((TamilTranslator.split_text text chunkSize).filterMap
        (fun c => if trim c = [] then none
          else some (match oracle c with
            | some t => t
            | none => TamilTranslator.placeholder c)))) := by
  obtain ⟨c, hc, hcne, hcoracle⟩ := hsucc
  have hnotall : (TamilTranslator.split_text text chunkSize).countP
      (fun c => decide (trim c ≠ [] ∧ oracle c = none)) ≠
      (TamilTranslator.split_text text chunkSize).length := by
    intro heq
    have hall := List.countP_eq_length.1 heq c hc
    rw [decide_eq_true_eq] at hall
    exact hcoracle hall.2
  unfold TamilTranslator.translate_text
  rw [if_neg hne]
  simp only [tamilLoop_spec, hnotall, if_false, ite_false]

/-- Witness for C3's amended theorem: first segment fails, second
succeeds; the output is placeholder-then-translation joined by a newline. -/
theorem c3_segment_failure_recovery_witness :
    (TamilTranslator.translate_text
        (fun c => if c = "ab".data then none else some ['X'])
        "ab\ncd".data 3).output =
      some ("[Translation failed: ab...]\nX".data) := by
  have h := c3_segment_failure_recovery
    (fun c => if c = "ab".data then none else some ['X'])
    "ab\ncd".data 3 (by decide) ⟨"cd".data, by decide, by decide, by decide⟩
  exact h.trans (by decide)

/-! ## Helper lemmas about trimming and joining -/

lemma dropWhile_append_of_forall (p : Char → Bool) :
    ∀ w s, (∀ c ∈ w, p c = true) →
      List.dropWhile p (w ++ s) = List.dropWhile p s := by
  intro w
  induction w with
  | nil => intro s _; rfl
  | cons c t ih =>
    intro s h
    have hc : p c = true := h c (List.mem_cons_self c t)
    simp only [List.cons_append, List.dropWhile_cons, hc, if_true]
    exact ih s (fun d hd => h d (List.mem_cons_of_mem c hd))

lemma trimRight_append_ws (s w : List Char) (h : ∀ c ∈ w, isPyWS c = true) :
    trimRight (s ++ w) = trimRight s := by
  unfold trimRight
  rw [List.reverse_append, dropWhile_append_of_forall isPyWS w.reverse s.reverse
    (fun c hc => h c (List.mem_reverse.1 hc))]

lemma trim_append_ws (s w : List Char) (h : ∀ c ∈ w, isPyWS c = true) :
    trim (s ++ w) = trim s := by
  unfold trim
  rw [trimRight_append_ws s w h]

lemma dropWhile_length_le (p : Char → Bool) (l : List Char) :
    (List.dropWhile p l).length ≤ l.length := by
  induction l with
  | nil => exact le_refl _
  | cons c t ih =>
    rw [List.dropWhile_cons]
    by_cases hc : p c = true
    · rw [if_pos hc, List.length_cons]
      omega
    · rw [if_neg hc]

lemma trimRight_length_le (s : List Char) : (trimRight s).length ≤ s.length := by
  unfold trimRight
  rw [List.length_reverse]
  exact le_trans (dropWhile_length_le isPyWS s.reverse) (by rw [List.length_reverse])

lemma trimLeft_length_le (s : List Char) : (trimLeft s).length ≤ s.length :=
  dropWhile_length_le isPyWS s

lemma trim_length_le (s : List Char) : (trim s).length ≤ s.length :=
  le_trans (trimLeft_length_le _) (trimRight_length_le s)

lemma dropWhile_eq_self_of_length (p : Char → Bool) (l : List Char)
    (h : (List.dropWhile p l).length = l.length) : List.dropWhile p l = l := by
  cases l with
  | nil => rfl
  | cons c t =>
    by_cases hc : p c = true
    · exfalso
      rw [List.dropWhile_cons, if_pos hc] at h
      have := dropWhile_length_le p t
      simp [List.length_cons] at h
      omega
    · rw [List.dropWhile_cons, if_neg hc]

lemma trimRight_eq_self_of_trim (u : List Char) (h : trim u = u) :
    trimRight u = u := by
  have h1 : (trim u).length = u.length := by rw [h]
  have h2 : (trimRight u).length = u.length := by
    have := trimLeft_length_le (trimRight u)
    have := trimRight_length_le u
    unfold trim at h1
    omega
  unfold trimRight at h2 ⊢
  rw [List.length_reverse] at h2
  rw [dropWhile_eq_self_of_length isPyWS u.reverse (by rw [h2, List.length_reverse]),
    List.reverse_reverse]

lemma trimLeft_eq_self_of_trim (u : List Char) (h : trim u = u) :
    trimLeft u = u := by
  have := trimRight_eq_self_of_trim u h
  unfold trim at h
  rw [this] at h
  exact h

lemma head_not_ws_of_dropWhile (c : Char) (t : List Char)
    (h : List.dropWhile isPyWS (c :: t) = c :: t) : isPyWS c = false := by
  by_cases hc : isPyWS c = true
  · exfalso
    rw [List.dropWhile_cons, if_pos hc] at h
    have h1 : (List.dropWhile isPyWS t).length = t.length + 1 := by
      rw [h]; rfl
    have := dropWhile_length_le isPyWS t
    omega
  · simpa using hc

/-- A unit that is nonempty and unchanged by strip. -/
def goodUnit (u : List Char) : Prop := u ≠ [] ∧ trim u = u

lemma goodUnit_head (c : Char) (t : List Char) (h : goodUnit (c :: t)) :
    isPyWS c = false :=
  head_not_ws_of_dropWhile c t (trimLeft_eq_self_of_trim _ h.2)

lemma trimLeft_append_keeps (u z : List Char) (hu : u ≠ [])
    (h : trimLeft u = u) : trimLeft (u ++ z) = u ++ z := by
  cases u with
  | nil => exact absurd rfl hu
  | cons c t =>
    have hc : isPyWS c = false := head_not_ws_of_dropWhile c t h
    unfold trimLeft
    rw [List.cons_append, List.dropWhile_cons, hc]
    simp

lemma trimRight_append_keeps (a X : List Char) (hX : X ≠ [])
    (h : trimRight X = X) : trimRight (a ++ X) = a ++ X := by
  have hrev : List.dropWhile isPyWS X.reverse = X.reverse := by
    have : (trimRight X).reverse = X.reverse := by rw [h]
    unfold trimRight at this
    rw [List.reverse_reverse] at this
    exact this
  obtain ⟨d, r, hdr⟩ : ∃ d r, X.reverse = d :: r := by
    cases hx : X.reverse with
    | nil => exact absurd (by simpa using congrArg List.reverse hx) hX
    | cons d r => exact ⟨d, r, rfl⟩
  have hd : isPyWS d = false := head_not_ws_of_dropWhile d r (hdr ▸ hrev)
  unfold trimRight
  rw [List.reverse_append, hdr, List.cons_append, List.dropWhile_cons, hd]
  simp only [Bool.false_eq_true, if_false]
  rw [← List.cons_append, ← hdr, ← List.reverse_append, List.reverse_reverse]

/-! ## Claim C5: size bound -/

lemma chunksGo_size (sep : List Char) (maxSize : Nat)
    (hsep : ∀ c ∈ sep, isPyWS c = true) (UU : List (List Char)) :
    ∀ units current, (∀ u ∈ units, u ∈ UU) →
      (current = [] ∨ current.length ≤ maxSize ∨ ∃ u ∈ UU, current = u ++ sep) →
      ∀ seg ∈ Segmenter.chunksGo sep maxSize units current,
        seg.length ≤ maxSize ∨ ∃ u ∈ UU, seg = trim u := by
  intro units
  induction units with
  | nil =>
    intro current _ hinv seg hseg
    by_cases hcur : current = []
    · simp [Segmenter.chunksGo, hcur] at hseg
    · simp only [Segmenter.chunksGo, hcur, if_false, List.mem_singleton] at hseg
      subst hseg
      rcases hinv with rfl | hle | ⟨u, hu, rfl⟩
      · exact absurd rfl hcur
      · exact Or.inl (le_trans (trim_length_le _) hle)
      · exact Or.inr ⟨u, hu, trim_append_ws u sep hsep⟩
  | cons u rest ih =>
    intro current hmem hinv seg hseg
    have hu : u ∈ UU := hmem u (List.mem_cons_self u rest)
    have hrest : ∀ v ∈ rest, v ∈ UU :=
      fun v hv => hmem v (List.mem_cons_of_mem u hv)
    by_cases hcond : maxSize < current.length + u.length + sep.length ∧ current ≠ []
    · rw [Segmenter.chunksGo, if_pos hcond] at hseg
      rcases List.mem_cons.1 hseg with rfl | hseg
      · rcases hinv with rfl | hle | ⟨v, hv, rfl⟩
        · exact absurd rfl hcond.2
        · exact Or.inl (le_trans (trim_length_le _) hle)
        · exact Or.inr ⟨v, hv, trim_append_ws v sep hsep⟩
      · exact ih (u ++ sep) hrest (Or.inr (Or.inr ⟨u, hu, rfl⟩)) seg hseg
    · rw [Segmenter.chunksGo, if_neg hcond] at hseg
      rcases Decidable.not_and_iff_or_not.1 hcond with hover | hcur
      · refine ih (current ++ u ++ sep) hrest (Or.inr (Or.inl ?_)) seg hseg
        simp only [List.length_append]
        omega
      · rw [Decidable.not_not] at hcur
        subst hcur
        exact ih (u ++ sep) hrest (Or.inr (Or.inr ⟨u, hu, by simp⟩)) seg hseg

/-- C5: every segment produced by either splitter is within max_size, or
is the strip of a single atomic unit (a line for the line splitter, a
paragraph for the paragraph splitter) that itself exceeds max_size. -/
theorem c5_size_bound (text : List Char) (maxSize : Nat) (h : 1 ≤ maxSize) :
    (∀ seg ∈ TamilTranslator.split_text text maxSize,
      seg.length ≤ maxSize ∨
        ∃ u ∈ splitNl text, seg = trim u ∧ maxSize < u.length) ∧
    (∀ seg ∈ GeminiTranslator.split_text text maxSize,
      seg.length ≤ maxSize ∨
        ∃ u ∈ splitPar text, seg = trim u ∧ maxSize < u.length) := by
  have main : ∀ (sep : List Char), (∀ c ∈ sep, isPyWS c = true) →
      ∀ (units : List (List Char)),
      ∀ seg ∈ Segmenter.chunksGo sep maxSize units [],
        seg.length ≤ maxSize ∨ ∃ u ∈ units, seg = trim u ∧ maxSize < u.length := by
    intro sep hsep units seg hseg
    have := chunksGo_size sep maxSize hsep units units [] (fun u hu => hu)
      (Or.inl rfl) seg hseg
    by_cases hlen : seg.length ≤ maxSize
    · exact Or.inl hlen
    · rcases this with hle | ⟨u, hu, hsegu⟩
      · exact Or.inl hle
      · refine Or.inr ⟨u, hu, hsegu, ?_⟩
        have h1 : (trim u).length ≤ u.length := trim_length_le u
        rw [hsegu] at hlen
        omega
  constructor
  · intro seg hseg
    unfold TamilTranslator.split_text at hseg
    by_cases hlen : text.length ≤ maxSize
    · rw [if_pos hlen, List.mem_singleton] at hseg
      subst hseg
      exact Or.inl hlen
    · rw [if_neg hlen] at hseg
      exact main ['\n'] (by decide) (splitNl text) seg hseg
  · intro seg hseg
    unfold GeminiTranslator.split_text at hseg
    by_cases hlen : text.length ≤ maxSize
    · rw [if_pos hlen, List.mem_singleton] at hseg
      subst hseg
      exact Or.inl hlen
    · rw [if_neg hlen] at hseg
      exact main ['\n', '\n'] (by decide) (splitPar text) seg hseg

/-- Witness for C5: the single oversized line "aaa" with max_size 2 is
kept whole, covered by the single-atomic-unit exception. -/
theorem c5_size_bound_witness :
    "aaa".data.length ≤ 2 ∨
      ∃ u ∈ splitNl "aaa".data, "aaa".data = trim u ∧ 2 < u.length :=
  (c5_size_bound "aaa".data 2 (by decide)).1 "aaa".data (by decide)

/-! ## Claim C1: round-trip segmentation -/

lemma joinSep_cons_of_ne (sep s : List Char) (L : List (List Char))
    (hL : L ≠ []) : joinSep sep (s :: L) = s ++ sep ++ joinSep sep L := by
  cases L with
  | nil => exact absurd rfl hL
  | cons h t => rfl

lemma joinSep_ne_nil (sep : List Char) (parts : List (List Char))
    (hne : parts ≠ []) (hall : ∀ u ∈ parts, u ≠ []) :
    joinSep sep parts ≠ [] := by
  cases parts with
  | nil => exact absurd rfl hne
  | cons s L =>
    cases L with
    | nil => exact hall s (List.mem_cons_self s [])
    | cons h t =>
      rw [joinSep_cons_of_ne sep s (h :: t) (by simp)]
      have hs := hall s (List.mem_cons_self s _)
      cases s with
      | nil => exact absurd rfl hs
      | cons c cs => simp

lemma joinSep_append (sep : List Char) :
    ∀ l1 l2 : List (List Char), l1 ≠ [] → l2 ≠ [] →
      joinSep sep (l1 ++ l2) = joinSep sep l1 ++ sep ++ joinSep sep l2 := by
  intro l1
  induction l1 with
  | nil => intro l2 h _; exact absurd rfl h
  | cons s t ih =>
    intro l2 _ h2
    cases t with
    | nil =>
      rw [List.singleton_append, joinSep_cons_of_ne sep s l2 h2]
      rfl
    | cons s2 t2 =>
      rw [List.cons_append, joinSep_cons_of_ne sep s ((s2 :: t2) ++ l2) (by simp),
        joinSep_cons_of_ne sep s (s2 :: t2) (by simp), ih l2 (by simp) h2]
      simp [List.append_assoc]

lemma trimRight_joinSep (sep : List Char) :
    ∀ cu : List (List Char), cu ≠ [] →
      (∀ u ∈ cu, u ≠ [] ∧ trimRight u = u) →
      trimRight (joinSep sep cu) = joinSep sep cu := by
  intro cu
  induction cu with
  | nil => intro h _; exact absurd rfl h
  | cons u t ih =>
    intro _ hall
    cases t with
    | nil => exact (hall u (List.mem_cons_self u [])).2
    | cons v t2 =>
      rw [joinSep_cons_of_ne sep u (v :: t2) (by simp)]
      have hJ : trimRight (joinSep sep (v :: t2)) = joinSep sep (v :: t2) :=
        ih (by simp) (fun w hw => hall w (List.mem_cons_of_mem u hw))
      have hJne : joinSep sep (v :: t2) ≠ [] :=
        joinSep_ne_nil sep (v :: t2) (by simp)
          (fun w hw => (hall w (List.mem_cons_of_mem u hw)).1)
      exact trimRight_append_keeps (u ++ sep) _ hJne hJ

lemma trimLeft_joinSep (sep : List Char) (cu : List (List Char))
    (hcu : cu ≠ []) (hall : ∀ u ∈ cu, u ≠ [] ∧ trimLeft u = u) :
    trimLeft (joinSep sep cu) = joinSep sep cu := by
  cases cu with
  | nil => exact absurd rfl hcu
  | cons u t =>
    have hu := hall u (List.mem_cons_self u t)
    cases t with
    | nil => exact hu.2
    | cons v t2 =>
      rw [joinSep_cons_of_ne sep u (v :: t2) (by simp), List.append_assoc]
      exact trimLeft_append_keeps u (sep ++ joinSep sep (v :: t2)) hu.1 hu.2

lemma trim_unitsJoin (sep : List Char) (hsep : ∀ c ∈ sep, isPyWS c = true)
    (cu : List (List Char)) (hcu : cu ≠ []) (hgood : ∀ u ∈ cu, goodUnit u) :
    trim (joinSep sep cu ++ sep) = joinSep sep cu := by
  rw [trim_append_ws _ sep hsep]
  unfold trim
  rw [trimRight_joinSep sep cu hcu
    (fun u hu => ⟨(hgood u hu).1, trimRight_eq_self_of_trim u (hgood u hu).2⟩)]
  exact trimLeft_joinSep sep cu hcu
    (fun u hu => ⟨(hgood u hu).1, trimLeft_eq_self_of_trim u (hgood u hu).2⟩)

lemma chunksGo_ne_nil (sep : List Char) (maxSize : Nat) :
    ∀ units current, current ≠ [] →
      Segmenter.chunksGo sep maxSize units current ≠ [] := by
  intro units
  induction units with
  | nil =>
    intro current hcur
    rw [Segmenter.chunksGo, if_neg hcur]
    simp
  | cons u rest ih =>
    intro current hcur
    by_cases hcond : maxSize < current.length + u.length + sep.length ∧ current ≠ []
    · rw [Segmenter.chunksGo, if_pos hcond]; simp
    · rw [Segmenter.chunksGo, if_neg hcond]
      refine ih (current ++ u ++ sep) (fun hx => hcur ?_)
      exact (List.append_eq_nil.1 (List.append_eq_nil.1 hx).1).1

lemma chunksGo_join (sep : List Char) (maxSize : Nat)
    (hsep : ∀ c ∈ sep, isPyWS c = true) :
    ∀ units cu, cu ≠ [] → (∀ u ∈ cu, goodUnit u) → (∀ u ∈ units, goodUnit u) →
      joinSep sep (Segmenter.chunksGo sep maxSize units (joinSep sep cu ++ sep)) =
        joinSep sep (cu ++ units) := by
  intro units
  induction units with
  | nil =>
    intro cu hcu hgood _
    have hne : joinSep sep cu ++ sep ≠ [] := fun hx =>
      joinSep_ne_nil sep cu hcu (fun u hu => (hgood u hu).1)
        (List.append_eq_nil.1 hx).1
    rw [Segmenter.chunksGo, if_neg hne, trim_unitsJoin sep hsep cu hcu hgood]
    simp [joinSep]
  | cons u rest ih =>
    intro cu hcu hgood hunits
    have hgu : goodUnit u := hunits u (List.mem_cons_self u rest)
    have hgrest : ∀ v ∈ rest, goodUnit v :=
      fun v hv => hunits v (List.mem_cons_of_mem u hv)
    by_cases hcond : maxSize < (joinSep sep cu ++ sep).length + u.length + sep.length ∧
        joinSep sep cu ++ sep ≠ []
    · rw [Segmenter.chunksGo, if_pos hcond]
      have hL : Segmenter.chunksGo sep maxSize rest (u ++ sep) ≠ [] :=
        chunksGo_ne_nil sep maxSize rest (u ++ sep)
          (fun hx => hgu.1 (List.append_eq_nil.1 hx).1)
      rw [joinSep_cons_of_ne sep _ _ hL, trim_unitsJoin sep hsep cu hcu hgood]
      have hrw : u ++ sep = joinSep sep [u] ++ sep := rfl
      rw [hrw, ih [u] (by simp)
        (by intro w hw; rw [List.mem_singleton] at hw; subst hw; exact hgu) hgrest]
      rw [joinSep_append sep cu (u :: rest) hcu (by simp)]
      rfl
    · rw [Segmenter.chunksGo, if_neg hcond]
      have hassoc : joinSep sep cu ++ sep ++ u ++ sep =
          joinSep sep (cu ++ [u]) ++ sep := by
        rw [joinSep_append sep cu [u] hcu (by simp)]
        rfl
      have hgoods : ∀ w ∈ cu ++ [u], goodUnit w := by
        intro w hw
        rcases List.mem_append.1 hw with hw | hw
        · exact hgood w hw
        · rw [List.mem_singleton] at hw; subst hw; exact hgu
      rw [hassoc, ih (cu ++ [u]) (by simp) hgoods hgrest, List.append_assoc]
      rfl

lemma splitNl_ne_nil (text : List Char) : splitNl text ≠ [] := by
  cases text with
  | nil => simp [splitNl]
  | cons c rest =>
    rw [splitNl]
    by_cases hc : c = '\n'
    · rw [if_pos hc]; simp
    · rw [if_neg hc]
      rcases hsp : splitNl rest with _ | ⟨h, t⟩ <;> simp

lemma joinNl_splitNl (text : List Char) : joinNl (splitNl text) = text := by
  induction text with
  | nil => rfl
  | cons c rest ih =>
    rw [splitNl]
    by_cases hc : c = '\n'
    · rw [if_pos hc]
      subst hc
      unfold joinNl at ih ⊢
      rw [joinSep_cons_of_ne ['\n'] [] (splitNl rest) (splitNl_ne_nil rest), ih]
      simp
    · rw [if_neg hc]
      rcases hsp : splitNl rest with _ | ⟨h, t⟩
      · exact absurd hsp (splitNl_ne_nil rest)
      · rw [hsp] at ih
        cases t with
        | nil =>
          unfold joinNl joinSep at ih ⊢
          rw [ih]
        | cons h2 t2 =>
          unfold joinNl at ih ⊢
          rw [joinSep_cons_of_ne ['\n'] (c :: h) (h2 :: t2) (by simp)]
          rw [joinSep_cons_of_ne ['\n'] h (h2 :: t2) (by simp)] at ih
          rw [← ih]
          simp

lemma splitPar_ne_nil (text : List Char) : splitPar text ≠ [] := by
  induction text using PyStr.splitPar.induct with
  | case1 => simp [splitPar]
  | case2 c => simp [splitPar]
  | case3 c1 c2 rest h ih =>
    rcases h with ⟨rfl, rfl⟩
    simp [splitPar]
  | case4 c1 c2 rest h hsp ih =>
    rw [splitPar, if_neg h, hsp]
    simp
  | case5 c1 c2 rest h hd tl hsp ih =>
    rw [splitPar, if_neg h, hsp]
    simp

lemma joinPar_splitPar (text : List Char) : joinPar (splitPar text) = text := by
  induction text using PyStr.splitPar.induct with
  | case1 => rfl
  | case2 c => rfl
  | case3 c1 c2 rest h ih =>
    rcases h with ⟨rfl, rfl⟩
    rw [splitPar, if_pos ⟨rfl, rfl⟩]
    unfold joinPar at ih ⊢
    rw [joinSep_cons_of_ne ['\n', '\n'] [] (splitPar rest) (splitPar_ne_nil rest), ih]
    simp
  | case4 c1 c2 rest h hsp ih =>
    exact absurd hsp (splitPar_ne_nil (c2 :: rest))
  | case5 c1 c2 rest h hd tl hsp ih =>
    rw [splitPar, if_neg h, hsp]
    rw [hsp] at ih
    cases tl with
    | nil =>
      unfold joinPar joinSep at ih ⊢
      rw [ih]
    | cons h2 t2 =>
      unfold joinPar at ih ⊢
      rw [joinSep_cons_of_ne ['\n', '\n'] (c1 :: hd) (h2 :: t2) (by simp)]
      rw [joinSep_cons_of_ne ['\n', '\n'] hd (h2 :: t2) (by simp)] at ih
      rw [← ih]
      simp

/-- C1 counterexample: both splitters strip each emitted chunk, so the
input "  aaaa\nbbb" (max_size 6) loses its leading spaces: the chunks are
["aaaa", "bbb"] and restoring the boundary newline(s) does not reproduce
the input (the lost characters precede the first segment, so no
between-segment restoration can recover them).  The paragraph splitter
fails the same way on "  aaaa\n\nbbb". -/
theorem c1_counterexample :
    TamilTranslator.split_text "  aaaa\nbbb".data 6 =
      ["aaaa".data, "bbb".data] ∧
    joinNl (TamilTranslator.split_text "  aaaa\nbbb".data 6) ≠
      "  aaaa\nbbb".data ∧
    GeminiTranslator.split_text "  aaaa\n\nbbb".data 6 =
      ["aaaa".data, "bbb".data] ∧
    joinPar (GeminiTranslator.split_text "  aaaa\n\nbbb".data 6) ≠
      "  aaaa\n\nbbb".data := by
  decide

/-- C1 (amended): the round trip holds whenever every atomic unit (line
for the line splitter, paragraph for the paragraph splitter) is nonempty
and has no leading or trailing whitespace; in general the per-chunk strip
can drop whitespace and empty units at chunk edges, so the unrestricted
claim fails (see the counterexample). -/
theorem c1_roundtrip (text : List Char) (maxSize : Nat) (hms : 1 ≤ maxSize) :
    ((∀ u ∈ splitNl text, u ≠ [] ∧ trim u = u) →
      joinNl (TamilTranslator.split_text text maxSize) = text) ∧
    ((∀ u ∈ splitPar text, u ≠ [] ∧ trim u = u) →
      joinPar (GeminiTranslator.split_text text maxSize) = text) := by
  constructor
  · intro hgood
    unfold TamilTranslator.split_text
    by_cases hlen : text.length ≤ maxSize
    · rw [if_pos hlen]; rfl
    · rw [if_neg hlen]
      rcases hsp : splitNl text with _ | ⟨u, rest⟩
      · exact absurd hsp (splitNl_ne_nil text)
      · rw [hsp] at hgood
        have hgoodu : goodUnit u := hgood u (List.mem_cons_self u rest)
        have hgoodrest : ∀ v ∈ rest, goodUnit v :=
          fun v hv => hgood v (List.mem_cons_of_mem u hv)
        rw [Segmenter.chunksGo, if_neg (by simp)]
        have hrw : ([] : List Char) ++ u ++ ['\n'] =
            joinSep ['\n'] [u] ++ ['\n'] := by simp [joinSep]
        rw [hrw]
        unfold joinNl
        rw [chunksGo_join ['\n'] maxSize (by decide) rest [u] (by simp)
          (by intro w hw; rw [List.mem_singleton] at hw; subst hw; exact hgoodu)
          hgoodrest]
        have hj := joinNl_splitNl text
        rw [hsp] at hj
        unfold joinNl at hj
        exact hj
  · intro hgood
    unfold GeminiTranslator.split_text
    by_cases hlen : text.length ≤ maxSize
    · rw [if_pos hlen]; rfl
    · rw [if_neg hlen]
      rcases hsp : splitPar text with _ | ⟨u, rest⟩
      · exact absurd hsp (splitPar_ne_nil text)
      · rw [hsp] at hgood
        have hgoodu : goodUnit u := hgood u (List.mem_cons_self u rest)
        have hgoodrest : ∀ v ∈ rest, goodUnit v :=
          fun v hv => hgood v (List.mem_cons_of_mem u hv)
        rw [Segmenter.chunksGo, if_neg (by simp)]
        have hrw : ([] : List Char) ++ u ++ ['\n', '\n'] =
            joinSep ['\n', '\n'] [u] ++ ['\n', '\n'] := by simp [joinSep]
        rw [hrw]
        unfold joinPar
        rw [chunksGo_join ['\n', '\n'] maxSize (by decide) rest [u] (by simp)
          (by intro w hw; rw [List.mem_singleton] at hw; subst hw; exact hgoodu)
          hgoodrest]
        have hj := joinPar_splitPar text
        rw [hsp] at hj
        unfold joinPar at hj
        exact hj

/-- Witness for C1's amended theorem: inputs all of whose units are
nonempty and strip-invariant round-trip exactly. -/
theorem c1_roundtrip_witness :
    joinNl (TamilTranslator.split_text "aaa\nbb\ncc".data 4) =
      "aaa\nbb\ncc".data ∧
    joinPar (GeminiTranslator.split_text "aaa\n\nbb".data 4) =
      "aaa\n\nbb".data :=
  ⟨(c1_roundtrip "aaa\nbb\ncc".data 4 (by decide)).1 (by decide),
    (c1_roundtrip "aaa\n\nbb".data 4 (by decide)).2 (by decide)⟩
